import Mathlib

/-!
Verification of core claims about the libcyphal runtime
(single-threaded executor, UDP session tree, CAN transport stub,
presentation-layer transfer-id management).

The executor model is a shallow embedding of
`include/libcyphal/platform/single_threaded_executor.hpp`.
The C++ keeps two AVL trees (`cavl::Tree`) over the same callback nodes:
`registered_nodes_` keyed by callback id and `scheduled_nodes_` keyed by
execution time with a never-equal comparator (`compareByExecutionTime`
returns +1 when the new time is greater than or equal to the node's time,
so a later insert lands to the right of all equal keys).  The generic AVL
container (`cavl.hpp`) itself is not part of the analysed sources; since
AVL rotations preserve the in-order sequence, each tree is embedded by its
in-order list: `registered` as a list of callback nodes (ids are unique and
allocated monotonically) and `sched` as a list of `(id, execution time)`
pairs sorted by time with ties in insertion order.

`TimePoint` is a monotonic instant backed by a 64-bit signed tick count;
it is embedded as `Int`, with `TimePoint::min()` as the sentinel
`timePointMin`.  The monotonic clock is modelled as a fixed instant `now`
for the duration of one `spinOnce` call.

A callback body may call back into the executor (re-schedule itself,
remove callbacks).  Bodies are embedded as functions from the invocation
time to a list of `CbEffect`s which the spin loop interprets with the very
operations the C++ interface exposes (`scheduleCallbackByIdAt`,
`removeCallbackById`).  Registration of new callbacks from inside a body
always creates a fresh id in the C++ (ids are monotonically allocated and
never reused), so it cannot affect any existing id and is omitted from the
effect language.
-/

/-- Sentinel for `TimePoint::min()`: the least representable 64-bit tick count. -/
def timePointMin : Int := -(2 ^ 63)

/-- An effect a callback body can request from the executor while it runs:
re-scheduling some callback by id, or removing some callback by id. -/
inductive CbEffect where
  | schedule (id : Nat) (t : Int)
  | removeCb (id : Nat)
deriving DecidableEq

/-- A callback node of the executor (`CallbackNode` in the source): its unique id,
its auto-remove flag, and its body. The body is embedded as the list of executor
effects it requests when invoked at a given time point. -/
structure CbNode where
  id : Nat
  autoRemove : Bool
  func : Int → List CbEffect

/-- The observable state of `SingleThreadedExecutor`: the in-order list of the
`registered_nodes_` tree, the in-order list of the `scheduled_nodes_` tree as
`(callback id, execution time)` pairs, and the last allocated callback id. -/
structure ExecState where
  registered : List CbNode
  sched : List (Nat × Int)
  lastId : Nat

/-- Ids of the scheduled tree entries, in tree order. -/
def schedIds (l : List (Nat × Int)) : List Nat := l.map Prod.fst

/-- Whether a callback id is present in the registered tree
(the `registered_nodes_.search` by `compareById`). -/
def isRegisteredIn (reg : List CbNode) (cid : Nat) : Bool :=
  (reg.find? (fun n => n.id == cid)).isSome

/-- Insertion into the scheduled tree per `ScheduledNode::compareByExecutionTime`:
the comparator never returns equal and sends a new node with time `e.2` to the
right of every node whose time is less than or equal to it, so among equal
execution times the later insert comes later in tree order. -/
def insertSched (e : Nat × Int) : List (Nat × Int) → List (Nat × Int)
  | [] => [e]
  | x :: xs => if x.2 ≤ e.2 then x :: insertSched e xs else e :: x :: xs

/-- `SingleThreadedExecutor::scheduleCallbackByIdAt`: look the id up in the
registered tree; if absent return `false` and change nothing; otherwise remove
the previously scheduled entry for that node (if any), update its execution
time and re-insert it into the scheduled tree, returning `true`. -/
def scheduleCallbackByIdAt (s : ExecState) (cid : Nat) (t : Int) : ExecState × Bool :=
  match s.registered.find? (fun n => n.id == cid) with
  | none => (s, false)
  | some _ =>
      ({ s with sched := insertSched (cid, t) (s.sched.filter (fun x => x.1 != cid)) }, true)

/-- `SingleThreadedExecutor::removeCallbackById`: if the id is registered,
remove it from the scheduled tree (when scheduled) and from the registered
tree, and destroy the node; otherwise do nothing. -/
def removeCallbackById (s : ExecState) (cid : Nat) : ExecState :=
  match s.registered.find? (fun n => n.id == cid) with
  | none => s
  | some _ =>
      { s with
        registered := s.registered.filter (fun n => n.id != cid),
        sched := s.sched.filter (fun x => x.1 != cid) }

/-- `SingleThreadedExecutor::appendCallback`: allocate the next callback id and
insert a new node into the registered tree (ids grow monotonically, so the new
node is rightmost).  The C++ can also fail with out-of-memory and return
`nullopt`; allocation success is assumed here since no analysed claim concerns
registration failure. -/
def appendCallback (s : ExecState) (autoRm : Bool) (f : Int → List CbEffect) :
    ExecState × Nat :=
  ({ registered := s.registered ++ [⟨s.lastId + 1, autoRm, f⟩],
     sched := s.sched,
     lastId := s.lastId + 1 }, s.lastId + 1)

/-- Interpretation of one callback-body effect by the executor interface. -/
def applyEffect (s : ExecState) : CbEffect → ExecState
  | .schedule cid t => (scheduleCallbackByIdAt s cid t).1
  | .removeCb cid => removeCallbackById s cid

/-- Interpretation of a callback body: its effects applied in order. -/
def applyEffects (s : ExecState) (es : List CbEffect) : ExecState :=
  es.foldl applyEffect s

/-- The executor state directly after one callback invocation inside `spinOnce`:
the node was already removed from the scheduled tree; an auto-remove node is
additionally removed from the registered tree before its body runs, and the
body's effects are then interpreted.  (The C++ destroys the auto-remove node
right after the call; destruction has no further observable effect here.) -/
def spinInvoke (tp : Int) (s1 : ExecState) (cid : Nat) (node : CbNode) : ExecState :=
  applyEffects
    (if node.autoRemove then
      { s1 with registered := s1.registered.filter (fun n => n.id != cid) }
    else s1)
    (node.func tp)

/-- The `approx_now` update at the head of each `spinOnce` iteration: the clock
is re-sampled only while the cached approximation is still before the head
node's execution time. -/
def bumpNow (now approxNow execTime : Int) : Int :=
  if approxNow < execTime then now else approxNow

/-- Result and observable behaviour of one `spinOnce` call: the returned
`SpinResult` fields (`next_deadline`, `worst_lateness`), the final executor
state, and the trace of callback invocations as `(id, invocation time)`. -/
structure SpinOutcome where
  nextDeadline : Option Int
  worstLateness : Int
  state : ExecState
  trace : List (Nat × Int)

/-- Prefix an invocation onto the trace of a spin outcome. -/
def withTrace (cid : Nat) (tp : Int) (o : SpinOutcome) : SpinOutcome :=
  ⟨o.nextDeadline, o.worstLateness, o.state, (cid, tp) :: o.trace⟩

/-- The `spinOnce` while-loop.  Each iteration peeks the minimum of the
scheduled tree; if its execution time is still in the future (after a possible
clock re-sample) the loop stops publishing that time as `next_deadline`;
otherwise it records the lateness, pops the node, unregisters it first when it
is auto-remove, and invokes its body.  The C++ loop has no iteration bound;
`fuel` bounds the number of iterations of this embedding (a body that keeps
re-scheduling itself at past times makes the C++ loop run forever).
The inner `find?` looks the popped id up in the registered tree; in the C++
the scheduled node *is* a registered node, so the `none` branch is
unreachable in any reachable state and merely continues the loop. -/
def spinOnceGo (now : Int) : Nat → Int → Int → ExecState → SpinOutcome
  | 0, _, wl, s => ⟨none, wl, s, []⟩
  | fuel + 1, approxNow, wl, s =>
    match s.sched with
    | [] => ⟨none, wl, s, []⟩
    | (cid, execTime) :: rest =>
      if bumpNow now approxNow execTime < execTime then
        ⟨some execTime, wl, s, []⟩
      else
        match s.registered.find? (fun n => n.id == cid) with
        | none =>
            spinOnceGo now fuel (bumpNow now approxNow execTime)
              (max (bumpNow now approxNow execTime - execTime) wl)
              { s with sched := rest }
        | some node =>
            withTrace cid (bumpNow now approxNow execTime)
              (spinOnceGo now fuel (bumpNow now approxNow execTime)
                (max (bumpNow now approxNow execTime - execTime) wl)
                (spinInvoke (bumpNow now approxNow execTime) { s with sched := rest } cid node))

/-- `SingleThreadedExecutor::spinOnce`: the loop starts with
`approx_now = TimePoint::min()` and `worst_lateness` zero. -/
def spinOnce (now : Int) (fuel : Nat) (s : ExecState) : SpinOutcome :=
  spinOnceGo now fuel timePointMin 0 s

/-!
UDP session tree, from `include/libcyphal/transport/udp/session_tree.hpp`.

`SessionTree<Node>` is an AVL tree of session nodes keyed by `PortId`
(`RxSessionTreeNode::Base::compareByPortId`); the port id is the only node
datum the analysed claims depend on, so the tree is embedded as the list of
port ids in tree order.  The node kinds (`Message`, `Request`, `Response`)
instantiate the same template and each kind gets its own tree, so one tree is
modelled.  `compareByPortId` returns `node.port - target`, i.e. positive when
the node's key exceeds the target, which consistently mirrors the tree's
descent direction relative to the executor's comparators; since both insertion
and lookup use the same predicate, membership semantics are unaffected and
only the in-order orientation flips, which no analysed claim observes. -/

/-- Outcome of `SessionTree::ensureNewNodeFor`: `Expected<NodeRef, AnyFailure>`
restricted to the alternatives the function produces. -/
inductive SessResult where
  | memoryError
  | alreadyExists
  | nodeRef (portId : Nat)
deriving DecidableEq

/-- Insertion position of a fresh port id in the session tree, following
`compareByPortId` (descend away whenever the keys differ; equality cannot
occur because the factory only runs when the search found no match). -/
def sessInsert (pid : Nat) : List Nat → List Nat
  | [] => [pid]
  | x :: xs => if pid < x then x :: sessInsert pid xs else pid :: x :: xs

/-- `SessionTree::ensureNewNodeFor(port_id)`: search the tree by port id; when
a node already exists return `AlreadyExistsError` without touching the tree
(the allocating factory is not invoked); otherwise run the factory, which
allocates a node from the memory resource — on allocation failure
(`allocOk = false`) the tree is unchanged and the result is `MemoryError`,
else the new node is linked and a reference to it is returned. -/
def ensureNewNodeFor (tree : List Nat) (allocOk : Bool) (pid : Nat) :
    SessResult × List Nat :=
  if pid ∈ tree then (.alreadyExists, tree)
  else if allocOk then (.nodeRef pid, sessInsert pid tree)
  else (.memoryError, tree)

/-- `SessionTree::removeNodeFor(port_id)`: search by port id and remove and
destroy the found node; absent ids are a no-op. -/
def removeNodeFor (tree : List Nat) (pid : Nat) : List Nat :=
  tree.erase pid

/-- One operation on a session tree, for stating invariants over arbitrary
operation sequences. -/
inductive SessOp where
  | ensure (pid : Nat) (allocOk : Bool)
  | removePort (pid : Nat)

/-- Apply one session-tree operation. -/
def applySessOp (tree : List Nat) : SessOp → List Nat
  | .ensure pid allocOk => (ensureNewNodeFor tree allocOk pid).2
  | .removePort pid => removeNodeFor tree pid

/-- Run a sequence of session-tree operations starting from the empty tree
(the state a freshly constructed `SessionTree` is in). -/
def runSessOps (ops : List SessOp) : List Nat :=
  ops.foldl applySessOp []

/-!
CAN transport, from `include/libcyphal/transport/can/transport.hpp`.

`detail::TransportImpl` is a stub: every session factory method returns
`NotImplementedError{}` (and `Factory::make` merely allocates the stub).
-/

/-- The six session factory methods of `ITransport`. -/
inductive CanSessionKind where
  | messageRx
  | messageTx
  | requestRx
  | requestTx
  | responseRx
  | responseTx
deriving DecidableEq

/-- Outcome of a CAN `TransportImpl` session factory call. -/
inductive CanSessionResult where
  | notImplemented
  | session (portId : Nat)
deriving DecidableEq

/-- `detail::TransportImpl::make*Session`: each of the six factory methods
returns `NotImplementedError{}` unconditionally. -/
def transportImplMakeSession (_kind : CanSessionKind) (_portId : Nat) :
    CanSessionResult :=
  .notImplemented

/-- `TransportImpl::makeMessageTxSession`, the factory a publisher on the CAN
transport would need. -/
def makeMessageTxSession (subjectId : Nat) : CanSessionResult :=
  transportImplMakeSession .messageTx subjectId

/-!
Presentation-layer transfer-id management.

Modelled from the spec: the publisher/client "impl" and its transfer-id
counter (`libcyphal/presentation/publisher_impl.hpp` and the shared client)
are not among the analysed sources — only their unit test
(`test/unittest/presentation/test_publisher.cpp`) is.  Per the spec, on
construction the impl queries the optional `TransferIdMap` for the initial
value for `(port, local node-id)`; if no map is set or the local node id is
anonymous the counter starts at 0; on each send the current value is used and
then incremented modulo the wire width (2^5 on CAN, 2^64 on UDP).  The unit
test corroborates this: with a map set but an anonymous local node the first
transfer id is 0 and the map is never queried; with node-id 0x13 and map
value 90 the first transfer id is 90.
-/

/-- Modelled from the spec: the initial value of a publisher/client impl's
transfer-id counter for a given port.  The `TransferIdMap` is consulted only
when both a map is set and the local node id is non-anonymous. -/
def initialTransferId (tidMap : Option (Nat × Nat → Nat)) (localNodeId : Option Nat)
    (portId : Nat) : Nat :=
  match tidMap, localNodeId with
  | some m, some nid => m (portId, nid)
  | _, _ => 0

/-- Modelled from the spec: the transfer id emitted on the n-th send (counted
from 0) by an impl whose counter starts at `init`, over a wire width of
`2 ^ wirePow` (wirePow = 5 on CAN, 64 on UDP): the current value is used, then
incremented modulo the wire width. -/
def transferIdSeq (wirePow : Nat) (init : Nat) : Nat → Nat
  | 0 => init
  | n + 1 => (transferIdSeq wirePow init n + 1) % 2 ^ wirePow

/-! Helper lemmas. -/

theorem insertSched_perm (e : Nat × Int) (l : List (Nat × Int)) :
    List.Perm (insertSched e l) (e :: l) := by
  induction l with
  | nil => simp [insertSched]
  | cons x xs ih =>
      by_cases h : x.2 ≤ e.2
      · simpa [insertSched, h] using ((ih.cons x).trans (List.Perm.swap e x xs))
      · simp [insertSched, h]

theorem sessInsert_perm (p : Nat) (l : List Nat) : List.Perm (sessInsert p l) (p :: l) := by
  induction l with
  | nil => simp [sessInsert]
  | cons x xs ih =>
      by_cases h : p < x
      · simpa [sessInsert, h] using ((ih.cons x).trans (List.Perm.swap p x xs))
      · simp [sessInsert, h]

theorem mem_insertSched {a e : Nat × Int} {l : List (Nat × Int)} :
    a ∈ insertSched e l ↔ a = e ∨ a ∈ l := by
  rw [(insertSched_perm e l).mem_iff]; simp

theorem sessInsert_count (p : Nat) (l : List Nat) (q : Nat) :
    (sessInsert p l).count q = (p :: l).count q :=
  (sessInsert_perm p l).count_eq q

theorem sessInsert_nodup {p : Nat} {l : List Nat} (hl : l.Nodup) (hp : p ∉ l) :
    (sessInsert p l).Nodup :=
  ((sessInsert_perm p l).nodup_iff).mpr (List.nodup_cons.mpr ⟨hp, hl⟩)

theorem runSessOps_nodup (ops : List SessOp) : (runSessOps ops).Nodup := by
  suffices h : ∀ (tree : List Nat), tree.Nodup → ∀ ops : List SessOp,
      (ops.foldl applySessOp tree).Nodup by
    exact h [] List.nodup_nil ops
  intro tree htree ops
  induction ops generalizing tree with
  | nil => simpa [runSessOps] using htree
  | cons op rest ih =>
      refine List.foldl_cons (f := applySessOp) .. ▸ ih _ ?_
      cases op with
      | ensure pid allocOk =>
          by_cases hmem : pid ∈ tree
          · simpa [applySessOp, ensureNewNodeFor, hmem] using htree
          · cases allocOk with
            | false => simpa [applySessOp, ensureNewNodeFor, hmem] using htree
            | true =>
                simpa [applySessOp, ensureNewNodeFor, hmem] using
                  sessInsert_nodup htree hmem
      | removePort pid =>
          exact (htree.sublist (List.erase_sublist pid tree) : _)

/-!
Claim theorems.
-/

/-- C3: `SessionTree::ensureNewNodeFor(port_id)` returns `AlreadyExists` iff a
node with that port id is already in the tree — in which case the tree is left
unchanged and the allocator is never consulted (the outcome is independent of
whether allocation would succeed); it returns `OutOfMemory` iff the id is new
and node allocation from the memory resource fails; and otherwise it inserts
exactly one new node for that port id (all other port ids untouched) and
returns a reference to it. -/
theorem ensureNewNodeFor_spec (tree : List Nat) (allocOk : Bool) (pid : Nat) :
    ((ensureNewNodeFor tree allocOk pid).1 = .alreadyExists ↔ pid ∈ tree) ∧
    (pid ∈ tree →
      (ensureNewNodeFor tree allocOk pid).2 = tree ∧
      ∀ ok2 : Bool, ensureNewNodeFor tree ok2 pid = ensureNewNodeFor tree allocOk pid) ∧
    ((ensureNewNodeFor tree allocOk pid).1 = .memoryError ↔
      (pid ∉ tree ∧ allocOk = false)) ∧
    (pid ∉ tree → allocOk = true →
      (ensureNewNodeFor tree allocOk pid).1 = .nodeRef pid ∧
      (ensureNewNodeFor tree allocOk pid).2.count pid = tree.count pid + 1 ∧
      ∀ q : Nat, q ≠ pid →
        (ensureNewNodeFor tree allocOk pid).2.count q = tree.count q) := by
  by_cases hmem : pid ∈ tree
  · refine ⟨by simp [ensureNewNodeFor, hmem], fun _ => ⟨by simp [ensureNewNodeFor, hmem],
      fun ok2 => by simp [ensureNewNodeFor, hmem]⟩, ?_, fun h => absurd hmem h⟩
    constructor
    · intro h
      simp [ensureNewNodeFor, hmem] at h
    · rintro ⟨h, _⟩
      exact absurd hmem h
  · cases allocOk with
    | false =>
        refine ⟨by simp [ensureNewNodeFor, hmem], fun h => absurd h hmem,
          by simp [ensureNewNodeFor, hmem], fun _ h => by simp at h⟩
    | true =>
        refine ⟨by simp [ensureNewNodeFor, hmem], fun h => absurd h hmem,
          by simp [ensureNewNodeFor, hmem], fun _ _ => ?_⟩
        refine ⟨by simp [ensureNewNodeFor, hmem], ?_, ?_⟩
        · simp [ensureNewNodeFor, hmem, sessInsert_count, List.count_cons_self]
        · intro q hq
          simp [ensureNewNodeFor, hmem, sessInsert_count,
            List.count_cons, hq, Ne.symm hq]

/-- Witness for C3 at a concrete input: in the empty tree, port 5 is new, so a
successful allocation inserts it and returns its node reference. -/
theorem ensureNewNodeFor_spec_witness :
    (ensureNewNodeFor [] true 5).1 = .nodeRef 5 ∧
    (ensureNewNodeFor [] true 5).2.count 5 = [].count 5 + 1 :=
  ⟨((ensureNewNodeFor_spec [] true 5).2.2.2 (by decide) rfl).1,
   ((ensureNewNodeFor_spec [] true 5).2.2.2 (by decide) rfl).2.1⟩

/-- C7: at most one session node per port id — after any sequence of
`ensureNewNodeFor` / `removeNodeFor` operations starting from a fresh
`SessionTree`, no port id occurs more than once in the tree.  (The message,
request and response trees instantiate the same `SessionTree` template
separately per kind, so this holds for each kind's tree.) -/
theorem sessionTree_at_most_one_per_port (ops : List SessOp) (pid : Nat) :
    (runSessOps ops).count pid ≤ 1 :=
  List.nodup_iff_count_le_one.mp (runSessOps_nodup ops) pid

/-- C6 counterexample: publishing the claimed single-frame message is
impossible on the analysed CAN transport — `makeMessageTxSession` for subject
0x123 returns `NotImplementedError` instead of a usable TX session, so no CAN
frame (in particular none with data `[0xDE, 0xAD, 0xE0]`) is ever emitted. -/
theorem canPublish_counterexample :
    makeMessageTxSession 0x123 = .notImplemented ∧
    CanSessionResult.notImplemented ≠ .session 0x123 := by
  exact ⟨rfl, by decide⟩

/-- C6 amended: the CAN `TransportImpl` is a stub — every session factory
method, for every kind and every port id, returns `NotImplementedError`; in
particular no message TX session can be created and no CAN frame is emitted
for the claimed publish of subject 0x123. -/
theorem canTransport_all_sessions_not_implemented :
    (∀ (k : CanSessionKind) (pid : Nat),
      transportImplMakeSession k pid = .notImplemented) ∧
    makeMessageTxSession 0x123 = .notImplemented :=
  ⟨fun _ _ => rfl, rfl⟩

/-- C4 counterexample: with a `TransferIdMap` set (every key maps to 90) but an
anonymous local node id, the first emitted transfer id is 0, not the map
value 90 — the claim's "the first emitted value equals the TransferIdMap value
… when a map is set" fails when the local node id is anonymous (the unit test
`multiple_publishers_with_transfer_id_map` shows exactly this: publisher 7 is
created while `getLocalNodeId()` is `nullopt` and its first send carries
transfer id 0 without the map ever being queried). -/
theorem transferId_counterexample :
    transferIdSeq 64 (initialTransferId (some (fun _ => 90)) none 7) 0 = 0 ∧
    (0 : Nat) ≠ 90 := by
  exact ⟨rfl, by decide⟩

/-- C4 amended: for every port and destination, the transfer id emitted on the
n-th send is the previously emitted value plus 1 modulo the wire width (2^5 on
CAN with `wirePow = 5`, 2^64 on UDP with `wirePow = 64`); the first emitted
value equals the `TransferIdMap` value for `(port, local node-id)` when a map
is set *and* the local node id is non-anonymous, and 0 otherwise (no map, or
anonymous local node). -/
theorem transferIdSeq_spec (wirePow : Nat) (init : Nat) (n : Nat)
    (m : Nat × Nat → Nat) (nid : Nat) (portId : Nat)
    (lnid : Option Nat) (tidMap : Option (Nat × Nat → Nat)) :
    transferIdSeq wirePow init (n + 1)
      = (transferIdSeq wirePow init n + 1) % 2 ^ wirePow ∧
    transferIdSeq wirePow init 0 = init ∧
    initialTransferId (some m) (some nid) portId = m (portId, nid) ∧
    initialTransferId tidMap none portId = 0 ∧
    initialTransferId none lnid portId = 0 := by
  refine ⟨rfl, rfl, rfl, ?_, ?_⟩
  · cases tidMap <;> rfl
  · cases lnid <;> rfl

/-! Executor helper lemmas. -/

theorem schedule_of_find_none {s : ExecState} {cid : Nat} (t : Int)
    (hf : s.registered.find? (fun n => n.id == cid) = none) :
    scheduleCallbackByIdAt s cid t = (s, false) := by
  unfold scheduleCallbackByIdAt
  rw [hf]

theorem schedule_of_find_some {s : ExecState} {cid : Nat} {n : CbNode} (t : Int)
    (hf : s.registered.find? (fun n => n.id == cid) = some n) :
    scheduleCallbackByIdAt s cid t =
      ({ s with sched := insertSched (cid, t) (s.sched.filter (fun x => x.1 != cid)) },
       true) := by
  unfold scheduleCallbackByIdAt
  rw [hf]

theorem schedule_unreg_noop {s : ExecState} {cid : Nat} (t : Int)
    (h : isRegisteredIn s.registered cid = false) :
    scheduleCallbackByIdAt s cid t = (s, false) := by
  refine schedule_of_find_none t ?_
  cases hf : s.registered.find? (fun n => n.id == cid) with
  | none => rfl
  | some n => rw [isRegisteredIn, hf] at h; simp at h

theorem filter_insertSched_self (cid : Nat) (t : Int) (l : List (Nat × Int)) :
    (insertSched (cid, t) l).filter (fun x => x.1 != cid) =
      l.filter (fun x => x.1 != cid) := by
  induction l with
  | nil => simp [insertSched]
  | cons x xs ih =>
      by_cases h : x.2 ≤ t
      · by_cases hx : x.1 = cid <;>
          simp [insertSched, h, List.filter_cons, hx, ih]
      · simp [insertSched, h, List.filter_cons]

theorem filter_ne_idem (cid : Nat) (l : List (Nat × Int)) :
    (l.filter (fun x => x.1 != cid)).filter (fun x => x.1 != cid) =
      l.filter (fun x => x.1 != cid) :=
  List.filter_eq_self.mpr (fun _ ha => (List.mem_filter.mp ha).2)

theorem not_mem_schedIds_filter (cid : Nat) (l : List (Nat × Int)) :
    cid ∉ schedIds (l.filter (fun x => x.1 != cid)) := by
  intro h
  obtain ⟨a, ha, hfst⟩ := List.mem_map.mp h
  have h2 := (List.mem_filter.mp ha).2
  rw [hfst] at h2
  simp at h2

theorem count_schedIds_insert_filter (cid : Nat) (t : Int) (l : List (Nat × Int)) :
    (schedIds (insertSched (cid, t) (l.filter (fun x => x.1 != cid)))).count cid
      = 1 := by
  have hperm := (insertSched_perm (cid, t) (l.filter (fun x => x.1 != cid))).map Prod.fst
  rw [schedIds, hperm.count_eq]
  have h0 : (List.map Prod.fst (l.filter (fun x => x.1 != cid))).count cid = 0 := by
    refine List.count_eq_zero.mpr ?_
    have hn := not_mem_schedIds_filter cid l
    rw [schedIds] at hn
    exact hn
  simp [List.count_cons, h0]

/-- C9: scheduling an unknown callback id is a silent no-op — for every state
whose registered tree does not contain the id and every time point,
`scheduleCallbackByIdAt` returns `false` and leaves the whole executor state
(registered and scheduled sets alike) unchanged. -/
theorem schedule_unknown_id_noop (s : ExecState) (cid : Nat) (t : Int)
    (h : isRegisteredIn s.registered cid = false) :
    scheduleCallbackByIdAt s cid t = (s, false) :=
  schedule_unreg_noop t h

/-- Witness for C9: in the empty executor, scheduling id 5 at time 3 returns
`false` and changes nothing. -/
theorem schedule_unknown_id_noop_witness :
    scheduleCallbackByIdAt ⟨[], [], 0⟩ 5 3 = (⟨[], [], 0⟩, false) :=
  schedule_unknown_id_noop ⟨[], [], 0⟩ 5 3 (by decide)

/-- C8: a second schedule supersedes the first — scheduling a callback id at
`t1` and then at `t2` leaves the executor in exactly the state reached by
scheduling it only at `t2` (for an unregistered id both are the same no-op);
and after any schedule of a registered id the scheduled tree holds exactly one
entry for that id. -/
theorem scheduleCallback_supersedes (s : ExecState) (cid : Nat) (t1 t2 : Int) :
    scheduleCallbackByIdAt (scheduleCallbackByIdAt s cid t1).1 cid t2
      = scheduleCallbackByIdAt s cid t2 ∧
    (isRegisteredIn s.registered cid = true →
      (schedIds (scheduleCallbackByIdAt s cid t2).1.sched).count cid = 1) := by
  constructor
  · cases hf : s.registered.find? (fun n => n.id == cid) with
    | none => rw [schedule_of_find_none t1 hf]
    | some n =>
        rw [schedule_of_find_some t1 hf]
        have hf2 : ({ s with
            sched := insertSched (cid, t1) (s.sched.filter (fun x => x.1 != cid))
          } : ExecState).registered.find? (fun n => n.id == cid) = some n := hf
        rw [schedule_of_find_some t2 hf2, schedule_of_find_some t2 hf]
        simp only [filter_insertSched_self, filter_ne_idem]
  · intro hreg
    rw [isRegisteredIn] at hreg
    obtain ⟨n, hf⟩ := Option.isSome_iff_exists.mp hreg
    rw [schedule_of_find_some t2 hf]
    exact count_schedIds_insert_filter cid t2 s.sched

/-- Witness for C8's registered-id part: one registered callback (id 1),
scheduled twice; the scheduled tree ends with exactly one entry for id 1. -/
theorem scheduleCallback_supersedes_witness :
    (schedIds (scheduleCallbackByIdAt
        ⟨[⟨1, false, fun _ => []⟩], [], 1⟩ 1 7).1.sched).count 1 = 1 :=
  (scheduleCallback_supersedes ⟨[⟨1, false, fun _ => []⟩], [], 1⟩ 1 4 7).2 (by decide)

/-- A callback body with no effects (a plain function in the C++). -/
def fnNil : Int → List CbEffect := fun _ => []

/-- The C2 scenario state: callbacks A, B, C registered in that order
(ids 1, 2, 3) and then scheduled A at t=5 ms, B at t=3 ms, C at t=5 ms. -/
def stScenario2 : ExecState :=
  (scheduleCallbackByIdAt
    (scheduleCallbackByIdAt
      (scheduleCallbackByIdAt
        (appendCallback (appendCallback (appendCallback ⟨[], [], 0⟩ false fnNil).1
          false fnNil).1 false fnNil).1
        1 5).1
      2 3).1
    3 5).1

/-- C2: `spinOnce` executes due callbacks in ascending execution-time order
with ties broken by insertion order.  Generally, a newly scheduled entry is
inserted after every entry whose execution time is less than or equal to its
own (a later insert compares greater, so it runs later among equal times);
concretely, with A registered then B then C (ids 1, 2, 3) and scheduled
A@5 ms, B@3 ms, C@5 ms, a `spinOnce` at t=10 ms invokes them in the order
B, A, C, leaves no callback scheduled and returns `next_deadline = None`. -/
theorem spin_executes_in_order :
    (∀ (c : Nat) (t : Int) (l : List (Nat × Int)),
      insertSched (c, t) l =
        l.takeWhile (fun x => decide (x.2 ≤ t)) ++
          (c, t) :: l.dropWhile (fun x => decide (x.2 ≤ t))) ∧
    (spinOnce 10 4 stScenario2).trace.map Prod.fst = [2, 1, 3] ∧
    (spinOnce 10 4 stScenario2).state.sched = [] ∧
    (spinOnce 10 4 stScenario2).nextDeadline = none := by
  refine ⟨?_, by decide, by decide, by decide⟩
  intro c t l
  induction l with
  | nil => simp [insertSched]
  | cons x xs ih =>
      by_cases h : x.2 ≤ t
      · simp [insertSched, h, List.takeWhile_cons, List.dropWhile_cons, ih]
      · simp [insertSched, h, List.takeWhile_cons, List.dropWhile_cons]

theorem spin_go_result (now : Int) (fuel : Nat) :
    ∀ (approxNow wl : Int) (s : ExecState), 0 ≤ wl →
      0 ≤ (spinOnceGo now fuel approxNow wl s).worstLateness ∧
      (∀ t : Int, (spinOnceGo now fuel approxNow wl s).nextDeadline = some t →
        now < t ∧
        ∃ c rest, (spinOnceGo now fuel approxNow wl s).state.sched = (c, t) :: rest) := by
  induction fuel with
  | zero =>
      intro aN wl s hwl
      refine ⟨by simpa [spinOnceGo] using hwl, ?_⟩
      intro t ht
      simp [spinOnceGo] at ht
  | succ f ih =>
      intro aN wl s hwl
      obtain ⟨reg, sched, lid⟩ := s
      cases sched with
      | nil =>
          refine ⟨by simpa [spinOnceGo] using hwl, ?_⟩
          intro t ht
          simp [spinOnceGo] at ht
      | cons hd tl =>
          obtain ⟨cid, et⟩ := hd
          by_cases hbr : bumpNow now aN et < et
          · have hstep : spinOnceGo now (f + 1) aN wl ⟨reg, (cid, et) :: tl, lid⟩
                = ⟨some et, wl, ⟨reg, (cid, et) :: tl, lid⟩, []⟩ := by
              simp [spinOnceGo, hbr]
            rw [hstep]
            refine ⟨hwl, ?_⟩
            intro t ht
            have htet : et = t := by simpa using ht
            subst htet
            refine ⟨?_, cid, tl, rfl⟩
            by_cases han : aN < et
            · rw [bumpNow, if_pos han] at hbr
              exact hbr
            · rw [bumpNow, if_neg han] at hbr
              exact absurd hbr han
          · have hwl2 : 0 ≤ max (bumpNow now aN et - et) wl :=
              le_trans hwl (le_max_right _ _)
            cases hf : reg.find? (fun n => n.id == cid) with
            | none =>
                have hstep : spinOnceGo now (f + 1) aN wl ⟨reg, (cid, et) :: tl, lid⟩
                    = spinOnceGo now f (bumpNow now aN et)
                        (max (bumpNow now aN et - et) wl) ⟨reg, tl, lid⟩ := by
                  simp [spinOnceGo, hbr, hf]
                rw [hstep]
                exact ih _ _ _ hwl2
            | some node =>
                have hstep : spinOnceGo now (f + 1) aN wl ⟨reg, (cid, et) :: tl, lid⟩
                    = withTrace cid (bumpNow now aN et)
                        (spinOnceGo now f (bumpNow now aN et)
                          (max (bumpNow now aN et - et) wl)
                          (spinInvoke (bumpNow now aN et) ⟨reg, tl, lid⟩ cid node)) := by
                  simp [spinOnceGo, hbr, hf]
                rw [hstep]
                simpa [withTrace] using
                  ih (bumpNow now aN et) (max (bumpNow now aN et - et) wl)
                    (spinInvoke (bumpNow now aN et) ⟨reg, tl, lid⟩ cid node) hwl2

/-! Executor invariants for the spin-loop theorems. -/

/-- The scheduled tree's in-order list is sorted by execution time. -/
def SchedSorted (l : List (Nat × Int)) : Prop :=
  l.Pairwise (fun a b => a.2 ≤ b.2)

/-- The executor's reachable-state invariant: the scheduled list is sorted by
execution time, no id occurs twice in the scheduled tree, no id occurs twice
in the registered tree, and every scheduled node is a registered node (in the
C++ the scheduled tree holds pointers to the very same registered nodes). -/
structure ExecInv (s : ExecState) : Prop where
  sorted : SchedSorted s.sched
  schedNodup : (schedIds s.sched).Nodup
  regNodup : (s.registered.map CbNode.id).Nodup
  schedReg : ∀ x ∈ s.sched, isRegisteredIn s.registered x.1 = true

/-- An effect never schedules anything at or before `now`. -/
def SchedEffFuture (now : Int) (e : CbEffect) : Prop :=
  ∀ cid t, e = .schedule cid t → now < t

/-- An effect neither re-schedules nor removes the callback `pid`. -/
def EffAvoids (pid : Nat) (e : CbEffect) : Prop :=
  (∀ t, e ≠ .schedule pid t) ∧ e ≠ .removeCb pid

/-- Every registered callback body only ever schedules at times after `now`. -/
def FutureOnly (now : Int) (s : ExecState) : Prop :=
  ∀ n ∈ s.registered, ∀ tp : Int, ∀ e ∈ n.func tp, SchedEffFuture now e

/-- No registered callback body other than `pid`'s own ever re-schedules or
removes callback `pid`. -/
def NoTouch (pid : Nat) (s : ExecState) : Prop :=
  ∀ n ∈ s.registered, n.id ≠ pid → ∀ tp : Int, ∀ e ∈ n.func tp, EffAvoids pid e

/-- Number of scheduled entries due at `now`. -/
def dueLen (now : Int) (l : List (Nat × Int)) : Nat :=
  (l.filter (fun x => decide (x.2 ≤ now))).length

theorem isRegisteredIn_iff {reg : List CbNode} {cid : Nat} :
    isRegisteredIn reg cid = true ↔ ∃ n ∈ reg, n.id = cid := by
  rw [isRegisteredIn, List.find?_isSome]
  simp

theorem isRegisteredIn_filter_keep {reg : List CbNode} {cid cid2 : Nat}
    (h : isRegisteredIn reg cid2 = true) (hne : cid2 ≠ cid) :
    isRegisteredIn (reg.filter (fun n => n.id != cid)) cid2 = true := by
  obtain ⟨n, hn, hid⟩ := isRegisteredIn_iff.mp h
  exact isRegisteredIn_iff.mpr
    ⟨n, List.mem_filter.mpr ⟨hn, by simp [hid, hne]⟩, hid⟩

theorem isRegisteredIn_filter_self {reg : List CbNode} {cid : Nat} :
    isRegisteredIn (reg.filter (fun n => n.id != cid)) cid = false := by
  by_contra h
  have h2 : isRegisteredIn (reg.filter (fun n => n.id != cid)) cid = true := by
    revert h
    cases isRegisteredIn (reg.filter (fun n => n.id != cid)) cid <;> simp
  obtain ⟨n, hn, hid⟩ := isRegisteredIn_iff.mp h2
  have := (List.mem_filter.mp hn).2
  simp [hid] at this

theorem schedule_registered_eq (s : ExecState) (cid : Nat) (t : Int) :
    (scheduleCallbackByIdAt s cid t).1.registered = s.registered := by
  unfold scheduleCallbackByIdAt
  cases s.registered.find? (fun n => n.id == cid) <;> rfl

theorem applyEffect_registered_sub {s : ExecState} {e : CbEffect} {n : CbNode}
    (h : n ∈ (applyEffect s e).registered) : n ∈ s.registered := by
  cases e with
  | schedule cid t =>
      rw [applyEffect, schedule_registered_eq] at h
      exact h
  | removeCb cid =>
      rw [applyEffect, removeCallbackById] at h
      revert h
      cases s.registered.find? (fun n => n.id == cid) with
      | none => exact id
      | some m => exact fun h => (List.mem_filter.mp h).1

theorem applyEffects_registered_sub {es : List CbEffect} :
    ∀ {s : ExecState} {n : CbNode},
      n ∈ (applyEffects s es).registered → n ∈ s.registered := by
  induction es with
  | nil => intro s n h; exact h
  | cons e es ih =>
      intro s n h
      rw [applyEffects, List.foldl_cons] at h
      exact applyEffect_registered_sub (ih h)

theorem spinInvoke_registered_sub {tp : Int} {s1 : ExecState} {cid : Nat}
    {node : CbNode} {n : CbNode}
    (h : n ∈ (spinInvoke tp s1 cid node).registered) : n ∈ s1.registered := by
  rw [spinInvoke] at h
  have h2 := applyEffects_registered_sub h
  by_cases ha : node.autoRemove
  · rw [if_pos ha] at h2
    exact (List.mem_filter.mp h2).1
  · rw [if_neg ha] at h2
    exact h2

theorem FutureOnly_of_sub {now : Int} {s s2 : ExecState}
    (hs : FutureOnly now s) (hsub : ∀ n ∈ s2.registered, n ∈ s.registered) :
    FutureOnly now s2 :=
  fun n hn => hs n (hsub n hn)

theorem NoTouch_of_sub {pid : Nat} {s s2 : ExecState}
    (hs : NoTouch pid s) (hsub : ∀ n ∈ s2.registered, n ∈ s.registered) :
    NoTouch pid s2 :=
  fun n hn => hs n (hsub n hn)

theorem insertSched_sorted {e : Nat × Int} {l : List (Nat × Int)}
    (h : SchedSorted l) : SchedSorted (insertSched e l) := by
  induction l with
  | nil => simp [insertSched, SchedSorted]
  | cons x xs ih =>
      rw [SchedSorted, List.pairwise_cons] at h
      by_cases hx : x.2 ≤ e.2
      · rw [insertSched, if_pos hx, SchedSorted, List.pairwise_cons]
        refine ⟨?_, ih h.2⟩
        intro b hb
        rcases mem_insertSched.mp hb with hbe | hbm
        · rw [hbe]; exact hx
        · exact h.1 b hbm
      · rw [insertSched, if_neg hx, SchedSorted, List.pairwise_cons]
        push_neg at hx
        refine ⟨?_, List.pairwise_cons.mpr h⟩
        intro b hb
        rcases List.mem_cons.mp hb with hbe | hbm
        · rw [hbe]; exact le_of_lt hx
        · exact le_trans (le_of_lt hx) (h.1 b hbm)

theorem SchedSorted_filter {l : List (Nat × Int)} (p : Nat × Int → Bool)
    (h : SchedSorted l) : SchedSorted (l.filter p) :=
  h.sublist (List.filter_sublist l)

theorem schedIds_filter_nodup {l : List (Nat × Int)} (p : Nat × Int → Bool)
    (h : (schedIds l).Nodup) : (schedIds (l.filter p)).Nodup :=
  h.sublist ((List.filter_sublist l).map Prod.fst)

theorem insert_filter_schedNodup {cid : Nat} {t : Int} {l : List (Nat × Int)}
    (h : (schedIds l).Nodup) :
    (schedIds (insertSched (cid, t) (l.filter (fun x => x.1 != cid)))).Nodup := by
  have hperm := (insertSched_perm (cid, t) (l.filter (fun x => x.1 != cid))).map Prod.fst
  rw [schedIds, hperm.nodup_iff]
  rw [List.map_cons, List.nodup_cons]
  exact ⟨not_mem_schedIds_filter cid l, schedIds_filter_nodup _ h⟩

theorem applyEffect_inv {s : ExecState} (e : CbEffect) (h : ExecInv s) :
    ExecInv (applyEffect s e) := by
  cases e with
  | schedule cid t =>
      rw [applyEffect]
      cases hf : s.registered.find? (fun n => n.id == cid) with
      | none => rw [schedule_of_find_none t hf]; exact h
      | some n =>
          rw [schedule_of_find_some t hf]
          refine ⟨?_, ?_, h.regNodup, ?_⟩
          · exact insertSched_sorted (SchedSorted_filter _ h.sorted)
          · exact insert_filter_schedNodup h.schedNodup
          · intro x hx
            rcases mem_insertSched.mp hx with hxe | hxm
            · rw [hxe]
              rw [isRegisteredIn, hf]
              rfl
            · exact h.schedReg x (List.mem_filter.mp hxm).1
  | removeCb cid =>
      rw [applyEffect, removeCallbackById]
      cases hf : s.registered.find? (fun n => n.id == cid) with
      | none => exact h
      | some n =>
          refine ⟨SchedSorted_filter _ h.sorted, schedIds_filter_nodup _ h.schedNodup,
            h.regNodup.sublist ((List.filter_sublist s.registered).map CbNode.id), ?_⟩
          intro x hx
          have hx2 := List.mem_filter.mp hx
          have hne : x.1 ≠ cid := by
            have := hx2.2
            simpa using this
          exact isRegisteredIn_filter_keep (h.schedReg x hx2.1) hne

theorem applyEffects_inv {es : List CbEffect} :
    ∀ {s : ExecState}, ExecInv s → ExecInv (applyEffects s es) := by
  induction es with
  | nil => intro s h; exact h
  | cons e es ih =>
      intro s h
      rw [applyEffects, List.foldl_cons]
      exact ih (applyEffect_inv e h)

theorem spinInvoke_inv {tp : Int} {s1 : ExecState} {cid : Nat} {node : CbNode}
    (h : ExecInv s1) (hnot : cid ∉ schedIds s1.sched) :
    ExecInv (spinInvoke tp s1 cid node) := by
  rw [spinInvoke]
  refine applyEffects_inv ?_
  by_cases ha : node.autoRemove
  · rw [if_pos ha]
    refine ⟨h.sorted, h.schedNodup,
      h.regNodup.sublist ((List.filter_sublist s1.registered).map CbNode.id), ?_⟩
    intro x hx
    refine isRegisteredIn_filter_keep (h.schedReg x hx) ?_
    intro hxe
    exact hnot (hxe ▸ List.mem_map_of_mem Prod.fst hx)
  · rw [if_neg ha]
    exact h

theorem applyEffect_sched_mem_keep {s : ExecState} {e : CbEffect} {pid : Nat}
    {et : Int} (hav : EffAvoids pid e) (hmem : (pid, et) ∈ s.sched) :
    (pid, et) ∈ (applyEffect s e).sched := by
  cases e with
  | schedule cid t =>
      have hne : pid ≠ cid := by
        intro he
        exact (hav.1 t) (by rw [he])
      rw [applyEffect]
      cases hf : s.registered.find? (fun n => n.id == cid) with
      | none => rw [schedule_of_find_none t hf]; exact hmem
      | some n =>
          rw [schedule_of_find_some t hf]
          exact mem_insertSched.mpr
            (Or.inr (List.mem_filter.mpr ⟨hmem, by simp [hne]⟩))
  | removeCb cid =>
      have hne : pid ≠ cid := by
        intro he
        exact hav.2 (by rw [he])
      rw [applyEffect, removeCallbackById]
      cases s.registered.find? (fun n => n.id == cid) with
      | none => exact hmem
      | some n => exact List.mem_filter.mpr ⟨hmem, by simp [hne]⟩

theorem applyEffects_sched_mem_keep {pid : Nat} {et : Int} {es : List CbEffect} :
    ∀ {s : ExecState}, (∀ e ∈ es, EffAvoids pid e) → (pid, et) ∈ s.sched →
      (pid, et) ∈ (applyEffects s es).sched := by
  induction es with
  | nil => intro s _ hmem; exact hmem
  | cons e es ih =>
      intro s hav hmem
      rw [applyEffects, List.foldl_cons]
      exact ih (fun e2 he2 => hav e2 (List.mem_cons_of_mem e he2))
        (applyEffect_sched_mem_keep (hav e (List.mem_cons_self e _)) hmem)

theorem applyEffect_future_keep {now : Int} {s : ExecState} {e : CbEffect}
    {pid : Nat} (hfe : SchedEffFuture now e)
    (hfut : ∀ t : Int, (pid, t) ∈ s.sched → now < t) :
    ∀ t : Int, (pid, t) ∈ (applyEffect s e).sched → now < t := by
  cases e with
  | schedule cid t2 =>
      rw [applyEffect]
      cases hf : s.registered.find? (fun n => n.id == cid) with
      | none =>
          rw [schedule_of_find_none t2 hf]
          exact hfut
      | some n =>
          rw [schedule_of_find_some t2 hf]
          intro t hmem
          rcases mem_insertSched.mp hmem with hme | hmm
          · have ht : t = t2 := congrArg Prod.snd hme
            rw [ht]
            exact hfe cid t2 rfl
          · exact hfut t (List.mem_filter.mp hmm).1
  | removeCb cid =>
      rw [applyEffect, removeCallbackById]
      cases s.registered.find? (fun n => n.id == cid) with
      | none => exact hfut
      | some n =>
          intro t hmem
          exact hfut t (List.mem_filter.mp hmem).1

theorem applyEffects_future_keep {now : Int} {pid : Nat} {es : List CbEffect} :
    ∀ {s : ExecState}, (∀ e ∈ es, SchedEffFuture now e) →
      (∀ t : Int, (pid, t) ∈ s.sched → now < t) →
      ∀ t : Int, (pid, t) ∈ (applyEffects s es).sched → now < t := by
  induction es with
  | nil => intro s _ hfut; exact hfut
  | cons e es ih =>
      intro s hfe hfut
      rw [applyEffects, List.foldl_cons]
      exact ih (fun e2 he2 => hfe e2 (List.mem_cons_of_mem e he2))
        (applyEffect_future_keep (hfe e (List.mem_cons_self e _)) hfut)

theorem dueLen_filter_le (now : Int) (p : Nat × Int → Bool)
    (l : List (Nat × Int)) : dueLen now (l.filter p) ≤ dueLen now l :=
  ((List.filter_sublist l).filter _).length_le

theorem dueLen_insert_future {now t : Int} (c : Nat) (l : List (Nat × Int))
    (ht : now < t) : dueLen now (insertSched (c, t) l) = dueLen now l := by
  rw [dueLen, ((insertSched_perm (c, t) l).filter _).length_eq]
  rw [List.filter_cons]
  simp [not_le.mpr ht, dueLen]

theorem applyEffect_dueLen {now : Int} {s : ExecState} {e : CbEffect}
    (hfe : SchedEffFuture now e) :
    dueLen now (applyEffect s e).sched ≤ dueLen now s.sched := by
  cases e with
  | schedule cid t =>
      rw [applyEffect]
      cases hf : s.registered.find? (fun n => n.id == cid) with
      | none => rw [schedule_of_find_none t hf]
      | some n =>
          rw [schedule_of_find_some t hf]
          have ht : now < t := hfe cid t rfl
          calc dueLen now (insertSched (cid, t) (s.sched.filter (fun x => x.1 != cid)))
              = dueLen now (s.sched.filter (fun x => x.1 != cid)) :=
                dueLen_insert_future cid _ ht
            _ ≤ dueLen now s.sched := dueLen_filter_le now _ s.sched
  | removeCb cid =>
      rw [applyEffect, removeCallbackById]
      cases s.registered.find? (fun n => n.id == cid) with
      | none => exact le_rfl
      | some n => exact dueLen_filter_le now _ s.sched

theorem applyEffects_dueLen {now : Int} {es : List CbEffect} :
    ∀ {s : ExecState}, (∀ e ∈ es, SchedEffFuture now e) →
      dueLen now (applyEffects s es).sched ≤ dueLen now s.sched := by
  induction es with
  | nil => intro s _; exact le_rfl
  | cons e es ih =>
      intro s hfe
      rw [applyEffects, List.foldl_cons]
      exact le_trans (ih (fun e2 he2 => hfe e2 (List.mem_cons_of_mem e he2)))
        (applyEffect_dueLen (hfe e (List.mem_cons_self e _)))

theorem spinInvoke_dueLen {now tp : Int} {s1 : ExecState} {cid : Nat}
    {node : CbNode} (hfe : ∀ e ∈ node.func tp, SchedEffFuture now e) :
    dueLen now (spinInvoke tp s1 cid node).sched ≤ dueLen now s1.sched := by
  rw [spinInvoke]
  have hsched : (if node.autoRemove then
      { s1 with registered := s1.registered.filter (fun n => n.id != cid) }
    else s1).sched = s1.sched := by
    by_cases ha : node.autoRemove <;> simp [ha]
  calc dueLen now (applyEffects (if node.autoRemove then
          { s1 with registered := s1.registered.filter (fun n => n.id != cid) }
        else s1) (node.func tp)).sched
      ≤ dueLen now (if node.autoRemove then
          { s1 with registered := s1.registered.filter (fun n => n.id != cid) }
        else s1).sched := applyEffects_dueLen hfe
    _ = dueLen now s1.sched := by rw [hsched]

theorem spinInvoke_sched_mem_keep {tp : Int} {s1 : ExecState} {cid pid : Nat}
    {et : Int} {node : CbNode}
    (hav : ∀ e ∈ node.func tp, EffAvoids pid e) (hmem : (pid, et) ∈ s1.sched) :
    (pid, et) ∈ (spinInvoke tp s1 cid node).sched := by
  rw [spinInvoke]
  refine applyEffects_sched_mem_keep hav ?_
  by_cases ha : node.autoRemove <;> simp [ha, hmem]

theorem spinInvoke_future_keep {now tp : Int} {s1 : ExecState} {cid pid : Nat}
    {node : CbNode} (hfe : ∀ e ∈ node.func tp, SchedEffFuture now e)
    (hfut : ∀ t : Int, (pid, t) ∈ s1.sched → now < t) :
    ∀ t : Int, (pid, t) ∈ (spinInvoke tp s1 cid node).sched → now < t := by
  rw [spinInvoke]
  refine applyEffects_future_keep hfe ?_
  by_cases ha : node.autoRemove <;> simp [ha] <;> exact fun t h => hfut t h

theorem schedIds_cons (x : Nat × Int) (l : List (Nat × Int)) :
    schedIds (x :: l) = x.1 :: schedIds l := rfl

theorem bump_le {now aN et : Int} (h : aN ≤ now) : bumpNow now aN et ≤ now := by
  rw [bumpNow]
  by_cases h2 : aN < et <;> simp [h2, h]

theorem bump_no_break {now aN et : Int} (het : et ≤ now) :
    ¬ bumpNow now aN et < et := by
  rw [bumpNow]
  by_cases h2 : aN < et
  · rw [if_pos h2]
    exact not_lt.mpr het
  · rw [if_neg h2]
    exact h2

theorem spin_go_count_zero (now : Int) (pid : Nat) (fuel : Nat) :
    ∀ (aN wl : Int) (s : ExecState), aN ≤ now → FutureOnly now s →
      (∀ t : Int, (pid, t) ∈ s.sched → now < t) →
      (((spinOnceGo now fuel aN wl s).trace.map Prod.fst).count pid = 0 ∧
       (∀ t : Int, (pid, t) ∈ (spinOnceGo now fuel aN wl s).state.sched → now < t)) := by
  induction fuel with
  | zero =>
      intro aN wl s _ _ hfut
      exact ⟨by simp [spinOnceGo], by simpa [spinOnceGo] using hfut⟩
  | succ f ih =>
      intro aN wl s haN hFO hfut
      obtain ⟨reg, sched, lid⟩ := s
      cases sched with
      | nil => exact ⟨by simp [spinOnceGo], by simp [spinOnceGo]⟩
      | cons hd tl =>
          obtain ⟨cid, et⟩ := hd
          by_cases hbr : bumpNow now aN et < et
          · have hstep : spinOnceGo now (f + 1) aN wl ⟨reg, (cid, et) :: tl, lid⟩
                = ⟨some et, wl, ⟨reg, (cid, et) :: tl, lid⟩, []⟩ := by
              simp [spinOnceGo, hbr]
            rw [hstep]
            exact ⟨by simp, hfut⟩
          · have hfut_tl : ∀ t : Int, (pid, t) ∈ tl → now < t :=
              fun t ht => hfut t (List.mem_cons_of_mem _ ht)
            cases hf : reg.find? (fun n => n.id == cid) with
            | none =>
                have hstep : spinOnceGo now (f + 1) aN wl ⟨reg, (cid, et) :: tl, lid⟩
                    = spinOnceGo now f (bumpNow now aN et)
                        (max (bumpNow now aN et - et) wl) ⟨reg, tl, lid⟩ := by
                  simp [spinOnceGo, hbr, hf]
                rw [hstep]
                exact ih _ _ _ (bump_le haN) hFO hfut_tl
            | some node =>
                have hcid : cid ≠ pid := by
                  intro he
                  subst he
                  have h1 : now < et := hfut et (List.mem_cons_self _ _)
                  exact absurd h1
                    (not_lt.mpr (le_trans (le_of_not_lt hbr) (bump_le haN)))
                have hnode_mem : node ∈ reg := List.mem_of_find?_eq_some hf
                have hstep : spinOnceGo now (f + 1) aN wl ⟨reg, (cid, et) :: tl, lid⟩
                    = withTrace cid (bumpNow now aN et)
                        (spinOnceGo now f (bumpNow now aN et)
                          (max (bumpNow now aN et - et) wl)
                          (spinInvoke (bumpNow now aN et) ⟨reg, tl, lid⟩ cid node)) := by
                  simp [spinOnceGo, hbr, hf]
                rw [hstep]
                have hfe : ∀ e ∈ node.func (bumpNow now aN et), SchedEffFuture now e :=
                  fun e he => hFO node hnode_mem _ e he
                have hfut3 : ∀ t : Int,
                    (pid, t) ∈ (spinInvoke (bumpNow now aN et) ⟨reg, tl, lid⟩
                      cid node).sched → now < t :=
                  spinInvoke_future_keep hfe hfut_tl
                have hsub : ∀ n ∈ (spinInvoke (bumpNow now aN et) ⟨reg, tl, lid⟩
                    cid node).registered,
                    n ∈ (⟨reg, (cid, et) :: tl, lid⟩ : ExecState).registered :=
                  fun n hn =>
                    @spinInvoke_registered_sub (bumpNow now aN et) ⟨reg, tl, lid⟩
                      cid node n hn
                have hFO3 : FutureOnly now
                    (spinInvoke (bumpNow now aN et) ⟨reg, tl, lid⟩ cid node) :=
                  FutureOnly_of_sub hFO hsub
                have hrec := ih (bumpNow now aN et) (max (bumpNow now aN et - et) wl)
                  (spinInvoke (bumpNow now aN et) ⟨reg, tl, lid⟩ cid node)
                  (bump_le haN) hFO3 hfut3
                refine ⟨?_, by simpa [withTrace] using hrec.2⟩
                simp only [withTrace, List.map_cons, List.count_cons]
                simp [hrec.1, hcid]

theorem spin_go_count_one (now : Int) (pid : Nat) (fuel : Nat) :
    ∀ (aN wl : Int) (s : ExecState), aN ≤ now → ExecInv s → FutureOnly now s →
      NoTouch pid s →
      (∃ et : Int, et ≤ now ∧ (pid, et) ∈ s.sched) →
      dueLen now s.sched < fuel →
      (((spinOnceGo now fuel aN wl s).trace.map Prod.fst).count pid = 1 ∧
       (∀ t : Int, (pid, t) ∈ (spinOnceGo now fuel aN wl s).state.sched → now < t)) := by
  induction fuel with
  | zero =>
      intro aN wl s _ _ _ _ _ hdl
      exact absurd hdl (Nat.not_lt_zero _)
  | succ f ih =>
      intro aN wl s haN hInv hFO hNT hdue hdl
      obtain ⟨et0, het0, hmem0⟩ := hdue
      obtain ⟨reg, sched, lid⟩ := s
      cases sched with
      | nil => exact absurd hmem0 (List.not_mem_nil _)
      | cons hd tl =>
          obtain ⟨cid, et⟩ := hd
          have hpair := List.pairwise_cons.mp hInv.sorted
          have hhead : et ≤ et0 := by
            rcases List.mem_cons.mp hmem0 with he | hm
            · have h2 : et0 = et := congrArg Prod.snd he
              rw [h2]
            · exact hpair.1 _ hm
          have hetn : et ≤ now := le_trans hhead het0
          have hbr : ¬ bumpNow now aN et < et := bump_no_break hetn
          have hbumple : bumpNow now aN et ≤ now := bump_le haN
          have hreg : isRegisteredIn reg cid = true :=
            hInv.schedReg (cid, et) (List.mem_cons_self _ _)
          obtain ⟨node, hf⟩ : ∃ node, reg.find? (fun n => n.id == cid) = some node := by
            rw [isRegisteredIn] at hreg
            exact Option.isSome_iff_exists.mp hreg
          have hnode_mem : node ∈ reg := List.mem_of_find?_eq_some hf
          have hnode_id : node.id = cid := by
            have h2 := List.find?_some hf
            simpa using h2
          have hcid_not_tl : cid ∉ schedIds tl := by
            have h2 := hInv.schedNodup
            rw [schedIds_cons] at h2
            exact (List.nodup_cons.mp h2).1
          have hInv1 : ExecInv ⟨reg, tl, lid⟩ := by
            refine ⟨hpair.2, ?_, hInv.regNodup, ?_⟩
            · have h2 := hInv.schedNodup
              rw [schedIds_cons] at h2
              exact (List.nodup_cons.mp h2).2
            · intro x hx
              exact hInv.schedReg x (List.mem_cons_of_mem _ hx)
          have hInv3 : ExecInv (spinInvoke (bumpNow now aN et) ⟨reg, tl, lid⟩ cid node) :=
            spinInvoke_inv hInv1 hcid_not_tl
          have hfe : ∀ e ∈ node.func (bumpNow now aN et), SchedEffFuture now e :=
            fun e he => hFO node hnode_mem _ e he
          have hsub : ∀ n ∈ (spinInvoke (bumpNow now aN et) ⟨reg, tl, lid⟩
              cid node).registered,
              n ∈ (⟨reg, (cid, et) :: tl, lid⟩ : ExecState).registered :=
            fun n hn =>
              @spinInvoke_registered_sub (bumpNow now aN et) ⟨reg, tl, lid⟩
                cid node n hn
          have hFO3 : FutureOnly now
              (spinInvoke (bumpNow now aN et) ⟨reg, tl, lid⟩ cid node) :=
            FutureOnly_of_sub hFO hsub
          have hstep : spinOnceGo now (f + 1) aN wl ⟨reg, (cid, et) :: tl, lid⟩
              = withTrace cid (bumpNow now aN et)
                  (spinOnceGo now f (bumpNow now aN et)
                    (max (bumpNow now aN et - et) wl)
                    (spinInvoke (bumpNow now aN et) ⟨reg, tl, lid⟩ cid node)) := by
            simp [spinOnceGo, hbr, hf]
          rw [hstep]
          by_cases hcp : cid = pid
          · subst hcp
            have hfut_tl : ∀ t : Int, (cid, t) ∈ tl → now < t := by
              intro t ht
              exact absurd (List.mem_map_of_mem Prod.fst ht) hcid_not_tl
            have hfut3 : ∀ t : Int,
                (cid, t) ∈ (spinInvoke (bumpNow now aN et) ⟨reg, tl, lid⟩
                  cid node).sched → now < t :=
              spinInvoke_future_keep hfe hfut_tl
            have hz := spin_go_count_zero now cid f (bumpNow now aN et)
              (max (bumpNow now aN et - et) wl)
              (spinInvoke (bumpNow now aN et) ⟨reg, tl, lid⟩ cid node)
              hbumple hFO3 hfut3
            refine ⟨?_, by simpa [withTrace] using hz.2⟩
            simp only [withTrace, List.map_cons, List.count_cons]
            simp [hz.1]
          · have hmem_tl : (pid, et0) ∈ tl := by
              rcases List.mem_cons.mp hmem0 with he | hm
              · exact absurd (congrArg Prod.fst he).symm hcp
              · exact hm
            have hav : ∀ e ∈ node.func (bumpNow now aN et), EffAvoids pid e :=
              hNT node hnode_mem (by rw [hnode_id]; exact hcp) _
            have hmem3 : (pid, et0) ∈ (spinInvoke (bumpNow now aN et)
                ⟨reg, tl, lid⟩ cid node).sched :=
              spinInvoke_sched_mem_keep hav hmem_tl
            have hNT3 : NoTouch pid
                (spinInvoke (bumpNow now aN et) ⟨reg, tl, lid⟩ cid node) :=
              NoTouch_of_sub hNT hsub
            have hdl3 : dueLen now (spinInvoke (bumpNow now aN et)
                ⟨reg, tl, lid⟩ cid node).sched < f := by
              have h1 : dueLen now (spinInvoke (bumpNow now aN et)
                  ⟨reg, tl, lid⟩ cid node).sched ≤ dueLen now tl :=
                spinInvoke_dueLen hfe
              have h2 : dueLen now ((cid, et) :: tl) = dueLen now tl + 1 := by
                rw [dueLen, dueLen, List.filter_cons]
                simp [hetn]
              have h3 : dueLen now ((cid, et) :: tl) < f + 1 := hdl
              omega
            have hrec := ih (bumpNow now aN et) (max (bumpNow now aN et - et) wl)
              (spinInvoke (bumpNow now aN et) ⟨reg, tl, lid⟩ cid node)
              hbumple hInv3 hFO3 hNT3 ⟨et0, het0, hmem3⟩ hdl3
            refine ⟨?_, by simpa [withTrace] using hrec.2⟩
            simp only [withTrace, List.map_cons, List.count_cons]
            simp [hrec.1, hcp]

/-- A callback body that re-schedules callback id 1 at time 2 regardless of
the invocation time. -/
def fnSelfPast : Int → List CbEffect := fun _ => [.schedule 1 2]

/-- The C1 counterexample state: one registered, non-auto-remove callback
(id 1) whose body re-schedules itself at t=2, currently scheduled at t=1. -/
def stScenario1 : ExecState := ⟨[⟨1, false, fnSelfPast⟩], [(1, 1)], 1⟩

/-- C1 counterexample: a due callback that re-schedules itself from within its
body at a time not after now fires *again* in the same `spinOnce` call.  With
callback 1 scheduled at t=1 and a body that re-schedules it at t=2, a
`spinOnce` at now=10 (three loop iterations shown) invokes it three times —
not exactly once as the claim states.  (The C++ loop keeps popping the
re-inserted, still-due node; removal-before-invocation does not end the tick
for a node that is re-inserted at a due time.) -/
theorem spin_reschedule_counterexample :
    ((spinOnce 10 3 stScenario1).trace.map Prod.fst).count 1 = 3 ∧
    (3 : Nat) ≠ 1 := by
  exact ⟨by decide, by decide⟩

/-- C1 amended: for every callback in the scheduled set with execution time
`≤ now` when `spinOnce` is called, *provided* every callback body only
re-schedules at times strictly after now and no other callback's body
re-schedules or removes this one, a `spinOnce` with enough loop iterations
(more than the number of due entries — under these provisos the loop
terminates within that bound) invokes it exactly once; afterwards it either
is no longer scheduled or remains scheduled only at a strictly later
execution time set from within its own body.  If the callback re-schedules
itself at a time not after now, it fires again within the same `spinOnce`
(see the counterexample). -/
theorem spin_due_callback_fires_once (now : Int) (pid : Nat) (et : Int)
    (fuel : Nat) (s : ExecState)
    (hmin : timePointMin ≤ now)
    (hInv : ExecInv s) (hFO : FutureOnly now s) (hNT : NoTouch pid s)
    (hmem : (pid, et) ∈ s.sched) (het : et ≤ now)
    (hfuel : dueLen now s.sched < fuel) :
    ((spinOnce now fuel s).trace.map Prod.fst).count pid = 1 ∧
    (∀ t : Int, (pid, t) ∈ (spinOnce now fuel s).state.sched → now < t) :=
  spin_go_count_one now pid fuel timePointMin 0 s hmin hInv hFO hNT
    ⟨et, het, hmem⟩ hfuel

/-- Witness for C1's amended theorem: callback 1 due at t=1, body re-schedules
itself at t=20 > now=10; the spin invokes it exactly once. -/
theorem spin_due_callback_fires_once_witness :
    ((spinOnce 10 2
        ⟨[⟨1, false, fun _ => [.schedule 1 20]⟩], [(1, 1)], 1⟩).trace.map
      Prod.fst).count 1 = 1 :=
  (spin_due_callback_fires_once 10 1 1 2
    ⟨[⟨1, false, fun _ => [.schedule 1 20]⟩], [(1, 1)], 1⟩
    (by decide)
    ⟨by unfold SchedSorted; simp, by decide, by decide, by decide⟩
    (by
      intro n hn tp e he
      simp only [List.mem_singleton] at hn
      subst hn
      simp only [List.mem_singleton] at he
      subst he
      intro cid t h2
      cases h2
      decide)
    (by
      intro n hn hne
      simp only [List.mem_singleton] at hn
      subst hn
      simp at hne)
    (by decide) (by decide) (by decide)).1

theorem isRegisteredIn_false_iff {reg : List CbNode} {cid : Nat} :
    isRegisteredIn reg cid = false ↔ ∀ n ∈ reg, n.id ≠ cid := by
  rw [Bool.eq_false_iff, Ne, isRegisteredIn_iff]
  push_neg
  rfl

theorem isRegisteredIn_false_of_sub {reg reg2 : List CbNode} {cid : Nat}
    (hsub : ∀ n ∈ reg2, n ∈ reg) (h : isRegisteredIn reg cid = false) :
    isRegisteredIn reg2 cid = false :=
  isRegisteredIn_false_iff.mpr
    (fun n hn => isRegisteredIn_false_iff.mp h n (hsub n hn))

theorem applyEffect_unreg_keep {s : ExecState} {e : CbEffect} {pid : Nat}
    (hr : isRegisteredIn s.registered pid = false)
    (hs : ∀ t : Int, (pid, t) ∉ s.sched) :
    isRegisteredIn (applyEffect s e).registered pid = false ∧
    (∀ t : Int, (pid, t) ∉ (applyEffect s e).sched) := by
  cases e with
  | schedule cid t2 =>
      by_cases hcp : cid = pid
      · subst hcp
        rw [applyEffect, schedule_unreg_noop t2 hr]
        exact ⟨hr, hs⟩
      · rw [applyEffect]
        cases hf : s.registered.find? (fun n => n.id == cid) with
        | none =>
            rw [schedule_of_find_none t2 hf]
            exact ⟨hr, hs⟩
        | some n =>
            rw [schedule_of_find_some t2 hf]
            refine ⟨hr, ?_⟩
            intro t hmem
            rcases mem_insertSched.mp hmem with hme | hmm
            · exact hcp (congrArg Prod.fst hme).symm
            · exact hs t (List.mem_filter.mp hmm).1
  | removeCb cid =>
      rw [applyEffect, removeCallbackById]
      cases s.registered.find? (fun n => n.id == cid) with
      | none => exact ⟨hr, hs⟩
      | some n =>
          refine ⟨isRegisteredIn_false_of_sub
            (fun n2 hn2 => (List.mem_filter.mp hn2).1) hr, ?_⟩
          intro t hmem
          exact hs t (List.mem_filter.mp hmem).1

theorem applyEffects_unreg_keep {pid : Nat} {es : List CbEffect} :
    ∀ {s : ExecState},
      isRegisteredIn s.registered pid = false →
      (∀ t : Int, (pid, t) ∉ s.sched) →
      (isRegisteredIn (applyEffects s es).registered pid = false ∧
       ∀ t : Int, (pid, t) ∉ (applyEffects s es).sched) := by
  induction es with
  | nil => intro s hr hs; exact ⟨hr, hs⟩
  | cons e es ih =>
      intro s hr hs
      rw [applyEffects, List.foldl_cons]
      have h1 := applyEffect_unreg_keep (e := e) hr hs
      exact ih h1.1 h1.2

theorem spinInvoke_unreg_keep {tp : Int} {s1 : ExecState} {cid pid : Nat}
    {node : CbNode}
    (hr : isRegisteredIn s1.registered pid = false)
    (hs : ∀ t : Int, (pid, t) ∉ s1.sched) :
    isRegisteredIn (spinInvoke tp s1 cid node).registered pid = false ∧
    (∀ t : Int, (pid, t) ∉ (spinInvoke tp s1 cid node).sched) := by
  rw [spinInvoke]
  by_cases ha : node.autoRemove
  · rw [if_pos ha]
    exact applyEffects_unreg_keep
      (isRegisteredIn_false_of_sub (fun n hn => (List.mem_filter.mp hn).1) hr) hs
  · rw [if_neg ha]
    exact applyEffects_unreg_keep hr hs

theorem spin_go_unreg_zero (now : Int) (pid : Nat) (fuel : Nat) :
    ∀ (aN wl : Int) (s : ExecState),
      isRegisteredIn s.registered pid = false →
      (∀ t : Int, (pid, t) ∉ s.sched) →
      (((spinOnceGo now fuel aN wl s).trace.map Prod.fst).count pid = 0 ∧
       isRegisteredIn (spinOnceGo now fuel aN wl s).state.registered pid = false ∧
       (∀ t : Int, (pid, t) ∉ (spinOnceGo now fuel aN wl s).state.sched)) := by
  induction fuel with
  | zero =>
      intro aN wl s hr hs
      exact ⟨by simp [spinOnceGo], by simpa [spinOnceGo] using hr,
        by simpa [spinOnceGo] using hs⟩
  | succ f ih =>
      intro aN wl s hr hs
      obtain ⟨reg, sched, lid⟩ := s
      cases sched with
      | nil =>
          exact ⟨by simp [spinOnceGo], by simpa [spinOnceGo] using hr,
            by simp [spinOnceGo]⟩
      | cons hd tl =>
          obtain ⟨cid, et⟩ := hd
          have hs_tl : ∀ t : Int, (pid, t) ∉ tl :=
            fun t ht => hs t (List.mem_cons_of_mem _ ht)
          have hcp : cid ≠ pid := by
            intro he
            exact hs et (he ▸ List.mem_cons_self _ _)
          by_cases hbr : bumpNow now aN et < et
          · have hstep : spinOnceGo now (f + 1) aN wl ⟨reg, (cid, et) :: tl, lid⟩
                = ⟨some et, wl, ⟨reg, (cid, et) :: tl, lid⟩, []⟩ := by
              simp [spinOnceGo, hbr]
            rw [hstep]
            exact ⟨by simp, hr, hs⟩
          · cases hf : reg.find? (fun n => n.id == cid) with
            | none =>
                have hstep : spinOnceGo now (f + 1) aN wl ⟨reg, (cid, et) :: tl, lid⟩
                    = spinOnceGo now f (bumpNow now aN et)
                        (max (bumpNow now aN et - et) wl) ⟨reg, tl, lid⟩ := by
                  simp [spinOnceGo, hbr, hf]
                rw [hstep]
                exact ih _ _ _ hr hs_tl
            | some node =>
                have hstep : spinOnceGo now (f + 1) aN wl ⟨reg, (cid, et) :: tl, lid⟩
                    = withTrace cid (bumpNow now aN et)
                        (spinOnceGo now f (bumpNow now aN et)
                          (max (bumpNow now aN et - et) wl)
                          (spinInvoke (bumpNow now aN et) ⟨reg, tl, lid⟩ cid node)) := by
                  simp [spinOnceGo, hbr, hf]
                rw [hstep]
                have hkeep := @spinInvoke_unreg_keep (bumpNow now aN et)
                  ⟨reg, tl, lid⟩ cid pid node hr hs_tl
                have hrec := ih (bumpNow now aN et) (max (bumpNow now aN et - et) wl)
                  (spinInvoke (bumpNow now aN et) ⟨reg, tl, lid⟩ cid node)
                  hkeep.1 hkeep.2
                refine ⟨?_, by simpa [withTrace] using hrec.2.1,
                  by simpa [withTrace] using hrec.2.2⟩
                simp only [withTrace, List.map_cons, List.count_cons]
                simp [hrec.1, hcp]

theorem spinInvoke_of_autoRemove {tp : Int} {s1 : ExecState} {cid : Nat}
    {node : CbNode} (ha : node.autoRemove = true) :
    spinInvoke tp s1 cid node =
      applyEffects
        { s1 with registered := s1.registered.filter (fun n => n.id != cid) }
        (node.func tp) := by
  rw [spinInvoke, if_pos ha]

theorem spin_go_auto_remove (now : Int) (pid : Nat) (fuel : Nat) :
    ∀ (aN wl : Int) (s : ExecState), ExecInv s → NoTouch pid s →
      (∀ n ∈ s.registered, n.id = pid → n.autoRemove = true) →
      (((spinOnceGo now fuel aN wl s).trace.map Prod.fst).count pid ≤ 1 ∧
       (((spinOnceGo now fuel aN wl s).trace.map Prod.fst).count pid = 1 →
         isRegisteredIn (spinOnceGo now fuel aN wl s).state.registered pid = false ∧
         (∀ t : Int, (pid, t) ∉ (spinOnceGo now fuel aN wl s).state.sched))) := by
  induction fuel with
  | zero =>
      intro aN wl s _ _ _
      exact ⟨by simp [spinOnceGo], by simp [spinOnceGo]⟩
  | succ f ih =>
      intro aN wl s hInv hNT hAuto
      obtain ⟨reg, sched, lid⟩ := s
      cases sched with
      | nil => exact ⟨by simp [spinOnceGo], by simp [spinOnceGo]⟩
      | cons hd tl =>
          obtain ⟨cid, et⟩ := hd
          have hpair := List.pairwise_cons.mp hInv.sorted
          have hcid_not_tl : cid ∉ schedIds tl := by
            have h2 := hInv.schedNodup
            rw [schedIds_cons] at h2
            exact (List.nodup_cons.mp h2).1
          have hInv1 : ExecInv ⟨reg, tl, lid⟩ := by
            refine ⟨hpair.2, ?_, hInv.regNodup, ?_⟩
            · have h2 := hInv.schedNodup
              rw [schedIds_cons] at h2
              exact (List.nodup_cons.mp h2).2
            · intro x hx
              exact hInv.schedReg x (List.mem_cons_of_mem _ hx)
          by_cases hbr : bumpNow now aN et < et
          · have hstep : spinOnceGo now (f + 1) aN wl ⟨reg, (cid, et) :: tl, lid⟩
                = ⟨some et, wl, ⟨reg, (cid, et) :: tl, lid⟩, []⟩ := by
              simp [spinOnceGo, hbr]
            rw [hstep]
            exact ⟨by simp, by simp⟩
          · cases hf : reg.find? (fun n => n.id == cid) with
            | none =>
                have hstep : spinOnceGo now (f + 1) aN wl ⟨reg, (cid, et) :: tl, lid⟩
                    = spinOnceGo now f (bumpNow now aN et)
                        (max (bumpNow now aN et - et) wl) ⟨reg, tl, lid⟩ := by
                  simp [spinOnceGo, hbr, hf]
                rw [hstep]
                exact ih _ _ _ hInv1 hNT hAuto
            | some node =>
                have hnode_mem : node ∈ reg := List.mem_of_find?_eq_some hf
                have hnode_id : node.id = cid := by
                  have h2 := List.find?_some hf
                  simpa using h2
                have hstep : spinOnceGo now (f + 1) aN wl ⟨reg, (cid, et) :: tl, lid⟩
                    = withTrace cid (bumpNow now aN et)
                        (spinOnceGo now f (bumpNow now aN et)
                          (max (bumpNow now aN et - et) wl)
                          (spinInvoke (bumpNow now aN et) ⟨reg, tl, lid⟩ cid node)) := by
                  simp [spinOnceGo, hbr, hf]
                rw [hstep]
                by_cases hcp : cid = pid
                · subst hcp
                  have hAR : node.autoRemove = true := hAuto node hnode_mem hnode_id
                  have hnot_tl : ∀ t : Int, (cid, t) ∉ tl := by
                    intro t ht
                    exact hcid_not_tl (List.mem_map_of_mem Prod.fst ht)
                  have hkeep : isRegisteredIn
                      (spinInvoke (bumpNow now aN et) ⟨reg, tl, lid⟩
                        cid node).registered cid = false ∧
                      (∀ t : Int, (cid, t) ∉ (spinInvoke (bumpNow now aN et)
                        ⟨reg, tl, lid⟩ cid node).sched) := by
                    rw [spinInvoke_of_autoRemove hAR]
                    exact applyEffects_unreg_keep isRegisteredIn_filter_self hnot_tl
                  have hz := spin_go_unreg_zero now cid f (bumpNow now aN et)
                    (max (bumpNow now aN et - et) wl)
                    (spinInvoke (bumpNow now aN et) ⟨reg, tl, lid⟩ cid node)
                    hkeep.1 hkeep.2
                  constructor
                  · simp only [withTrace, List.map_cons, List.count_cons]
                    simp [hz.1]
                  · intro _
                    exact ⟨by simpa [withTrace] using hz.2.1,
                      by simpa [withTrace] using hz.2.2⟩
                · have hsub : ∀ n ∈ (spinInvoke (bumpNow now aN et) ⟨reg, tl, lid⟩
                      cid node).registered,
                      n ∈ (⟨reg, (cid, et) :: tl, lid⟩ : ExecState).registered :=
                    fun n hn =>
                      @spinInvoke_registered_sub (bumpNow now aN et) ⟨reg, tl, lid⟩
                        cid node n hn
                  have hInv3 : ExecInv
                      (spinInvoke (bumpNow now aN et) ⟨reg, tl, lid⟩ cid node) :=
                    spinInvoke_inv hInv1 hcid_not_tl
                  have hNT3 : NoTouch pid
                      (spinInvoke (bumpNow now aN et) ⟨reg, tl, lid⟩ cid node) :=
                    NoTouch_of_sub hNT hsub
                  have hAuto3 : ∀ n ∈ (spinInvoke (bumpNow now aN et)
                      ⟨reg, tl, lid⟩ cid node).registered,
                      n.id = pid → n.autoRemove = true :=
                    fun n hn => hAuto n (hsub n hn)
                  have hrec := ih (bumpNow now aN et)
                    (max (bumpNow now aN et - et) wl)
                    (spinInvoke (bumpNow now aN et) ⟨reg, tl, lid⟩ cid node)
                    hInv3 hNT3 hAuto3
                  constructor
                  · simp only [withTrace, List.map_cons, List.count_cons]
                    simpa [hcp] using hrec.1
                  · intro hc
                    have hc2 : ((spinOnceGo now f (bumpNow now aN et)
                        (max (bumpNow now aN et - et) wl)
                        (spinInvoke (bumpNow now aN et) ⟨reg, tl, lid⟩
                          cid node)).trace.map Prod.fst).count pid = 1 := by
                      simp only [withTrace, List.map_cons, List.count_cons] at hc
                      simpa [hcp] using hc
                    exact ⟨by simpa [withTrace] using (hrec.2 hc2).1,
                      by simpa [withTrace] using (hrec.2 hc2).2⟩

/-- C10: an auto-remove (one-shot) callback is invoked at most once by
`spinOnce`: the loop removes it from the registered tree *before* invoking its
body, so a self-re-schedule from within the body finds no registration and
has no effect.  Provided no other callback body targets this id, the spin
invokes it at most once, and once it has fired it is neither registered nor
scheduled any more, and any later `scheduleCallbackByIdAt` for its id is a
silent `false` no-op — hence at most one invocation over the executor's
lifetime. -/
theorem auto_remove_fires_at_most_once (now : Int) (pid : Nat) (fuel : Nat)
    (s : ExecState) (hInv : ExecInv s) (hNT : NoTouch pid s)
    (hAuto : ∀ n ∈ s.registered, n.id = pid → n.autoRemove = true) :
    ((spinOnce now fuel s).trace.map Prod.fst).count pid ≤ 1 ∧
    (((spinOnce now fuel s).trace.map Prod.fst).count pid = 1 →
      isRegisteredIn (spinOnce now fuel s).state.registered pid = false ∧
      (∀ t : Int, (pid, t) ∉ (spinOnce now fuel s).state.sched) ∧
      (∀ t2 : Int, scheduleCallbackByIdAt (spinOnce now fuel s).state pid t2
        = ((spinOnce now fuel s).state, false))) := by
  have h := spin_go_auto_remove now pid fuel timePointMin 0 s hInv hNT hAuto
  refine ⟨h.1, fun hc => ?_⟩
  have h2 := h.2 hc
  exact ⟨h2.1, h2.2, fun t2 => schedule_unreg_noop t2 h2.1⟩

/-- The C10 witness state: one auto-remove callback (id 1) scheduled at t=1
whose body tries to re-schedule itself at t=15. -/
def stScenario10 : ExecState := ⟨[⟨1, true, fun _ => [.schedule 1 15]⟩], [(1, 1)], 1⟩

/-- Witness for C10: the auto-remove callback fires exactly once at now=10 and
ends up unregistered despite its body's attempt to re-schedule itself. -/
theorem auto_remove_fires_at_most_once_witness :
    ((spinOnce 10 3 stScenario10).trace.map Prod.fst).count 1 ≤ 1 ∧
    isRegisteredIn (spinOnce 10 3 stScenario10).state.registered 1 = false :=
  ⟨(auto_remove_fires_at_most_once 10 1 3 stScenario10
      ⟨by unfold SchedSorted; simp [stScenario10], by decide, by decide, by decide⟩
      (by
        intro n hn hne
        simp only [stScenario10, List.mem_singleton] at hn
        subst hn
        simp at hne)
      (by
        intro n hn _
        simp only [stScenario10, List.mem_singleton] at hn
        subst hn
        rfl)).1,
   ((auto_remove_fires_at_most_once 10 1 3 stScenario10
      ⟨by unfold SchedSorted; simp [stScenario10], by decide, by decide, by decide⟩
      (by
        intro n hn hne
        simp only [stScenario10, List.mem_singleton] at hn
        subst hn
        simp at hne)
      (by
        intro n hn _
        simp only [stScenario10, List.mem_singleton] at hn
        subst hn
        rfl)).2 (by decide)).1⟩

/-- C5: for every executor state and every `spinOnce` call, the returned
`SpinResult` has `worst_lateness ≥ 0`, and whenever `next_deadline` is
`Some t`, the time `t` is strictly in the future (`now < t`) and is the
execution time of the earliest callback still scheduled when the call
returns. -/
theorem spinResult_spec (now : Int) (fuel : Nat) (s : ExecState) :
    0 ≤ (spinOnce now fuel s).worstLateness ∧
    (∀ t : Int, (spinOnce now fuel s).nextDeadline = some t →
      now < t ∧
      ∃ c rest, (spinOnce now fuel s).state.sched = (c, t) :: rest) :=
  spin_go_result now fuel timePointMin 0 s le_rfl

/-- Witness for C5's deadline part: one callback scheduled at t=42, spin at
now=10 — the returned deadline 42 is strictly after 10 and heads the
still-scheduled set. -/
theorem spinResult_spec_witness :
    0 ≤ (spinOnce 10 1 ⟨[⟨1, false, fnNil⟩], [(1, 42)], 1⟩).worstLateness ∧
    (10 : Int) < 42 ∧
    ∃ c rest,
      (spinOnce 10 1 ⟨[⟨1, false, fnNil⟩], [(1, 42)], 1⟩).state.sched
        = (c, (42 : Int)) :: rest :=
  ⟨(spinResult_spec 10 1 ⟨[⟨1, false, fnNil⟩], [(1, 42)], 1⟩).1,
   (spinResult_spec 10 1 ⟨[⟨1, false, fnNil⟩], [(1, 42)], 1⟩).2 42 (by decide)⟩
